import Mathlib

/-!
Verification of the PNG-signature scanner/extractor `afthumbs.py`.

The script opens a binary file, scans every byte offset for the 8-byte
PNG magic, and for each match reads a 4-byte little-endian length field
`L` and extracts `L + 8` bytes starting at the match offset into an
output file `pngs/<offset>.png`.

The input file is embedded as a `List Nat` of bytes.  A Python
`seek(i); read(n)` on a file of bytes `file` returns
`(file.drop i).take n` (silently truncated at end of file), which is
exactly how `readAt` is defined below.
-/

namespace Afthumbs

/-- The 8-byte PNG signature `b"\x89\x50\x4e\x47\x0d\x0a\x1a\x0a"`. -/
def pngMagic : List Nat := [0x89, 0x50, 0x4e, 0x47, 0x0d, 0x0a, 0x1a, 0x0a]

/-- `seek(i)` followed by `read(n)`: the bytes at offsets `[i, i+n)`,
silently truncated at end of file. -/
def readAt (file : List Nat) (i n : Nat) : List Nat :=
  (file.drop i).take n

/-- `int.from_bytes(bs, byteorder='little', signed=False)`. -/
def fromBytesLE : List Nat → Nat
  | [] => 0
  | b :: rest => b + 256 * fromBytesLE rest

/-- The match test of the scan loop:
`eight_bytes = binary_file.read(8)` compared with the PNG signature. -/
def isMatch (file : List Nat) (i : Nat) : Bool :=
  readAt file i 8 == pngMagic

/-- `png_size`: the next four bytes after the signature, read as an
unsigned little-endian integer. -/
def pngSize (file : List Nat) (i : Nat) : Nat :=
  fromBytesLE (readAt file (i + 8) 4)

/-- `png_data`: seek back to `i` and read `png_size + 8` bytes. -/
def pngData (file : List Nat) (i : Nat) : List Nat :=
  readAt file i (pngSize file i + 8)

/-- The offsets at which the scan loop
`for i in range(num_bytes)` finds the PNG signature, in loop order. -/
def matchOffsets (file : List Nat) : List Nat :=
  (List.range file.length).filter (isMatch file)

/-- The running match counter `count` at the end of the scan. -/
def matchCount (file : List Nat) : Nat :=
  (matchOffsets file).length

/-- The output filename for a match at offset `i`:
`"pngs/" + str(i) + ".png"`. -/
def outName (i : Nat) : String :=
  "pngs/" ++ Nat.repr i ++ ".png"

/-- The output files written by the scan: one `(name, contents)` pair
per match, in scan order. -/
def outputs (file : List Nat) : List (String × List Nat) :=
  (matchOffsets file).map (fun i => (outName i, pngData file i))

/-- Whether the final `print('No png signatures found?')` fires:
the `count==0` check after the scan. -/
def noSigMessage (file : List Nat) : Bool :=
  matchCount file == 0

/-- The argument-handling prologue: `sys.argv[1]` if given, otherwise
the interactive prompt response; an empty response is
`sys.exit("No Args or filename given, exiting!")`. -/
def selectFilename (arg : Option String) (promptResponse : String) :
    Except String String :=
  match arg with
  | some a => Except.ok a
  | none =>
      if promptResponse = "" then
        Except.error "No Args or filename given, exiting!"
      else
        Except.ok promptResponse

/-- The process exit status of the prologue: `sys.exit(msg)` exits
with status 1, a normal fall-through with 0. -/
def exitStatus (r : Except String String) : Nat :=
  match r with
  | Except.error _ => 1
  | Except.ok _ => 0

/-- Whether the scan (the `with open(...)` block) runs at all. -/
def scanRuns (arg : Option String) (promptResponse : String) : Bool :=
  match selectFilename arg promptResponse with
  | Except.error _ => false
  | Except.ok _ => true

/-- The output files produced by the whole program: none when the
prologue exits, the scan outputs otherwise. -/
def programOutputs (arg : Option String) (promptResponse : String)
    (file : List Nat) : List (String × List Nat) :=
  match selectFilename arg promptResponse with
  | Except.error _ => []
  | Except.ok _ => outputs file

/-- `errno.EEXIST` on POSIX systems. -/
def EEXIST : Nat := 17

/-- The `os.mkdir('pngs')` wrapper: `raised` is the errno of the
`OSError` raised by the OS, if any.  `EEXIST` is swallowed, any other
error is re-raised. -/
def mkdirPngs (raised : Option Nat) : Except Nat Unit :=
  match raised with
  | none => Except.ok ()
  | some e => if e = EEXIST then Except.ok () else Except.error e

/-- Writing one output file into a filesystem store, overwriting any
existing file of that name. -/
def writeStore (st : String → Option (List Nat)) (name : String)
    (contents : List Nat) : String → Option (List Nat) :=
  fun k => if k = name then some contents else st k

/-- Writing a list of output files into a filesystem store, in order. -/
def applyOutputs (st : String → Option (List Nat))
    (outs : List (String × List Nat)) : String → Option (List Nat) :=
  outs.foldl (fun s p => writeStore s p.1 p.2) st

/-! ### Basic facts about the embedded operations -/

theorem length_readAt (file : List Nat) (i n : Nat) :
    (readAt file i n).length = min n (file.length - i) := by
  simp [readAt]

theorem isMatch_iff (file : List Nat) (i : Nat) :
    isMatch file i = true ↔ readAt file i 8 = pngMagic := by
  simp [isMatch]

theorem isMatch_add_le (file : List Nat) (i : Nat)
    (h : isMatch file i = true) : i + 8 ≤ file.length := by
  rw [isMatch_iff] at h
  have hlen := length_readAt file i 8
  rw [h] at hlen
  simp [pngMagic] at hlen
  omega

theorem fromBytesLE_lt (bs : List Nat) (hb : ∀ b ∈ bs, b < 256) :
    fromBytesLE bs < 256 ^ bs.length := by
  induction bs with
  | nil => simp [fromBytesLE]
  | cons b rest ih =>
      have hb1 : b < 256 := hb b (List.mem_cons_self b rest)
      have hrest : fromBytesLE rest < 256 ^ rest.length :=
        ih (fun x hx => hb x (List.mem_cons_of_mem b hx))
      simp only [fromBytesLE, List.length_cons, pow_succ]
      calc b + 256 * fromBytesLE rest
          < 256 + 256 * fromBytesLE rest := by omega
        _ = 256 * (fromBytesLE rest + 1) := by ring
        _ ≤ 256 * 256 ^ rest.length := by
              exact Nat.mul_le_mul_left 256 hrest
        _ = 256 ^ rest.length * 256 := by ring

theorem mem_matchOffsets (file : List Nat) (i : Nat) :
    i ∈ matchOffsets file ↔ isMatch file i = true := by
  constructor
  · intro h
    exact (List.mem_filter.mp h).2
  · intro h
    refine List.mem_filter.mpr ⟨?_, h⟩
    have := isMatch_add_le file i h
    exact List.mem_range.mpr (by omega)

theorem matchOffsets_pairwise (file : List Nat) :
    (matchOffsets file).Pairwise (· < ·) :=
  (List.pairwise_lt_range file.length).filter (isMatch file)

theorem matchOffsets_nodup (file : List Nat) :
    (matchOffsets file).Nodup :=
  (matchOffsets_pairwise file).imp Nat.ne_of_lt

theorem nodup_eq_singleton {l : List Nat} {i : Nat} (hn : l.Nodup)
    (hmem : i ∈ l) (hall : ∀ j ∈ l, j = i) : l = [i] := by
  cases l with
  | nil => cases hmem
  | cons a t =>
      have ha : a = i := hall a (List.mem_cons_self a t)
      subst ha
      cases t with
      | nil => rfl
      | cons b u =>
          have hb : b = a := hall b (by simp)
          subst hb
          simp at hn

theorem pairwise_eq_pair {l : List Nat} {i j : Nat} (hij : i < j)
    (hp : l.Pairwise (· < ·))
    (hmem : ∀ x, x ∈ l ↔ x = i ∨ x = j) : l = [i, j] := by
  cases l with
  | nil =>
      have := (hmem i).mpr (Or.inl rfl)
      cases this
  | cons a t =>
      have hpa := List.pairwise_cons.mp hp
      have ha : a = i ∨ a = j := (hmem a).mp (List.mem_cons_self a t)
      have hai : a = i := by
        rcases ha with h | h
        · exact h
        · exfalso
          subst h
          have hi : i ∈ a :: t := (hmem i).mpr (Or.inl rfl)
          rcases List.mem_cons.mp hi with h1 | h1
          · omega
          · have := hpa.1 i h1
            omega
      subst hai
      have htall : ∀ x ∈ t, x = j := by
        intro x hx
        rcases (hmem x).mp (List.mem_cons_of_mem a hx) with h1 | h1
        · exfalso
          have := hpa.1 x hx
          omega
        · exact h1
      have hjt : j ∈ t := by
        have hj : j ∈ a :: t := (hmem j).mpr (Or.inr rfl)
        rcases List.mem_cons.mp hj with h1 | h1
        · omega
        · exact h1
      have htn : t.Nodup := (hpa.2).imp Nat.ne_of_lt
      rw [nodup_eq_singleton htn hjt htall]

theorem matchOffsets_eq_singleton (file : List Nat) (i : Nat)
    (hi : isMatch file i = true)
    (huniq : ∀ j, isMatch file j = true → j = i) :
    matchOffsets file = [i] :=
  nodup_eq_singleton (matchOffsets_nodup file)
    ((mem_matchOffsets file i).mpr hi)
    (fun j hj => huniq j ((mem_matchOffsets file j).mp hj))

theorem matchOffsets_eq_pair (file : List Nat) (i j : Nat) (hij : i < j)
    (hi : isMatch file i = true) (hj : isMatch file j = true)
    (huniq : ∀ k, isMatch file k = true → k = i ∨ k = j) :
    matchOffsets file = [i, j] :=
  pairwise_eq_pair hij (matchOffsets_pairwise file)
    (fun x => Iff.intro
      (fun hx => huniq x ((mem_matchOffsets file x).mp hx))
      (fun hx => (mem_matchOffsets file x).mpr (by
        rcases hx with h | h
        · exact h ▸ hi
        · exact h ▸ hj)))

/-! ### Injectivity of the decimal output-file naming -/

/-- The decimal digits of `n`, most significant first, as characters. -/
def decDigits (n : Nat) : List Char :=
  if _h : n < 10 then [Nat.digitChar n]
  else decDigits (n / 10) ++ [Nat.digitChar (n % 10)]
  decreasing_by
    exact Nat.div_lt_self (by omega) (by omega)

/-- The numeric value of a decimal digit character. -/
def digitVal (c : Char) : Nat := c.toNat - 48

/-- The numeric value of a most-significant-first decimal digit string. -/
def valOfDigits (l : List Char) : Nat :=
  l.foldl (fun a c => 10 * a + digitVal c) 0

theorem digitVal_digitChar (d : Nat) (h : d < 10) :
    digitVal (Nat.digitChar d) = d := by
  interval_cases d <;> rfl

theorem foldl_digits_append (l1 l2 : List Char) (a : Nat) :
    (l1 ++ l2).foldl (fun a c => 10 * a + digitVal c) a =
      l2.foldl (fun a c => 10 * a + digitVal c)
        (l1.foldl (fun a c => 10 * a + digitVal c) a) := by
  simp

theorem valOfDigits_decDigits (n : Nat) : valOfDigits (decDigits n) = n := by
  induction n using Nat.strong_induction_on with
  | _ n ih =>
      by_cases h : n < 10
      · rw [decDigits]
        simp only [h, dif_pos]
        simp [valOfDigits, digitVal_digitChar n h]
      · rw [decDigits]
        simp only [h, dif_neg, not_false_iff]
        have hdiv : n / 10 < n := Nat.div_lt_self (by omega) (by omega)
        have ihd := ih (n / 10) hdiv
        simp only [valOfDigits] at ihd ⊢
        rw [foldl_digits_append]
        simp only [List.foldl_cons, List.foldl_nil, ihd,
          digitVal_digitChar (n % 10) (Nat.mod_lt n (by omega))]
        omega

theorem toDigitsCore_eq_decDigits (fuel : Nat) :
    ∀ (n : Nat) (ds : List Char), n < fuel →
      Nat.toDigitsCore 10 fuel n ds = decDigits n ++ ds := by
  induction fuel with
  | zero => intro n ds h; omega
  | succ fuel ih =>
      intro n ds h
      rw [Nat.toDigitsCore]
      by_cases hz : n / 10 = 0
      · have hn : n < 10 := by omega
        simp only [hz, if_pos]
        rw [decDigits]
        simp [hn, Nat.mod_eq_of_lt hn]
      · simp only [hz, if_neg, not_false_iff]
        have hlt : n / 10 < fuel := by
          have : n / 10 < n := Nat.div_lt_self (by omega) (by omega)
          omega
        rw [ih (n / 10) _ hlt]
        conv_rhs => rw [decDigits]
        have hn : ¬ n < 10 := by omega
        simp [hn]

theorem repr_eq_decDigits (n : Nat) :
    Nat.repr n = (decDigits n).asString := by
  rw [Nat.repr, Nat.toDigits,
    toDigitsCore_eq_decDigits (n + 1) n [] (by omega)]
  simp

theorem decDigits_injective {m n : Nat} (h : decDigits m = decDigits n) :
    m = n := by
  have := valOfDigits_decDigits m
  rw [h, valOfDigits_decDigits n] at this
  omega

theorem repr_injective {m n : Nat} (h : Nat.repr m = Nat.repr n) :
    m = n := by
  rw [repr_eq_decDigits, repr_eq_decDigits] at h
  have hd : (decDigits m).asString.data = (decDigits n).asString.data := by
    rw [h]
  simp only [List.asString] at hd
  exact decDigits_injective hd

theorem outName_injective {m n : Nat} (h : outName m = outName n) :
    m = n := by
  simp only [outName] at h
  have hd : ("pngs/" ++ Nat.repr m ++ ".png").data =
      ("pngs/" ++ Nat.repr n ++ ".png").data := by rw [h]
  simp only [String.data_append] at hd
  rw [List.append_assoc, List.append_assoc] at hd
  have h1 := List.append_cancel_left hd
  have h2 := List.append_cancel_right h1
  exact repr_injective (String.ext h2)

/-! ### Slicing a file that carries the signature at a known offset -/

theorem isMatch_at_magic (padding rest : List Nat) :
    isMatch (padding ++ (pngMagic ++ rest)) padding.length = true := by
  rw [isMatch_iff]
  unfold readAt
  rw [List.drop_left]
  exact List.take_left' (by simp [pngMagic])

theorem pngSize_at_magic (padding rest : List Nat) :
    pngSize (padding ++ (pngMagic ++ rest)) padding.length =
      fromBytesLE (rest.take 4) := by
  unfold pngSize readAt
  rw [← List.append_assoc, List.drop_left' (by simp [pngMagic])]

theorem pngData_at_magic (padding rest : List Nat) :
    pngData (padding ++ (pngMagic ++ rest)) padding.length =
      pngMagic ++
        rest.take (pngSize (padding ++ (pngMagic ++ rest)) padding.length) := by
  unfold pngData readAt
  rw [List.drop_left]
  rw [show pngSize (padding ++ (pngMagic ++ rest)) padding.length + 8 =
        pngMagic.length +
          pngSize (padding ++ (pngMagic ++ rest)) padding.length by
      simp [pngMagic]; omega]
  exact List.take_append _

/-- The last write to name `k` among a list of output files: later
entries win. -/
def lastWrite (outs : List (String × List Nat)) (k : String) :
    Option (List Nat) :=
  match outs with
  | [] => none
  | p :: t =>
      match lastWrite t k with
      | some v => some v
      | none => if p.1 = k then some p.2 else none

theorem applyOutputs_apply (outs : List (String × List Nat)) :
    ∀ (st : String → Option (List Nat)) (k : String),
      applyOutputs st outs k = (lastWrite outs k).or (st k) := by
  induction outs with
  | nil => intro st k; rfl
  | cons p t ih =>
      intro st k
      have hstep : applyOutputs st (p :: t) k =
          applyOutputs (writeStore st p.1 p.2) t k := rfl
      rw [hstep, ih]
      cases h : lastWrite t k with
      | some v => simp [lastWrite, h]
      | none =>
          simp only [lastWrite, h]
          by_cases hk : p.1 = k
          · simp [writeStore, hk, Option.or]
          · have hk2 : ¬ k = p.1 := fun hkk => hk hkk.symm
            simp [writeStore, hk, hk2, Option.or]

theorem applyOutputs_idem (st : String → Option (List Nat))
    (outs : List (String × List Nat)) :
    applyOutputs (applyOutputs st outs) outs = applyOutputs st outs := by
  funext k
  rw [applyOutputs_apply, applyOutputs_apply]
  cases h : lastWrite outs k with
  | some v => rfl
  | none => rfl

/-! ### Claim theorems -/

/-- C2: for every match at offset `i`, the declared length is the unsigned
32-bit little-endian integer formed from the 4 bytes at offsets
`i+8 .. i+11`, and the extracted byte range starts at offset `i` and has
length exactly `declared length + 8` when that range lies within the
file. -/
theorem C2_match_record (file : List Nat) (i : Nat)
    (hm : isMatch file i = true)
    (hbytes : ∀ b ∈ file, b < 256)
    (h12 : i + 12 ≤ file.length)
    (hrange : i + (pngSize file i + 8) ≤ file.length) :
    pngSize file i = fromBytesLE ((file.drop (i + 8)).take 4) ∧
    pngSize file i < 2 ^ 32 ∧
    pngData file i = (file.drop i).take (pngSize file i + 8) ∧
    (pngData file i).length = pngSize file i + 8 := by
  have hm8 := isMatch_add_le file i hm
  refine ⟨rfl, ?_, rfl, ?_⟩
  · have hlen : (readAt file (i + 8) 4).length = 4 := by
      rw [length_readAt]; omega
    have hb : ∀ b ∈ readAt file (i + 8) 4, b < 256 := by
      intro b hbmem
      exact hbytes b (List.drop_subset (i + 8) file
        (List.take_subset 4 (file.drop (i + 8)) hbmem))
    have := fromBytesLE_lt (readAt file (i + 8) 4) hb
    rw [hlen] at this
    calc pngSize file i < 256 ^ 4 := this
      _ = 2 ^ 32 := by norm_num
  · unfold pngData
    rw [length_readAt]
    omega

/-- C2 witness: a concrete in-bounds match. -/
theorem C2_match_record_witness :
    pngSize (pngMagic ++ [2, 0, 0, 0] ++ [170, 187]) 0 =
      fromBytesLE ((((pngMagic ++ [2, 0, 0, 0] ++ [170, 187]).drop
        (0 + 8))).take 4) ∧
    pngSize (pngMagic ++ [2, 0, 0, 0] ++ [170, 187]) 0 < 2 ^ 32 ∧
    pngData (pngMagic ++ [2, 0, 0, 0] ++ [170, 187]) 0 =
      (((pngMagic ++ [2, 0, 0, 0] ++ [170, 187]).drop 0)).take
        (pngSize (pngMagic ++ [2, 0, 0, 0] ++ [170, 187]) 0 + 8) ∧
    (pngData (pngMagic ++ [2, 0, 0, 0] ++ [170, 187]) 0).length =
      pngSize (pngMagic ++ [2, 0, 0, 0] ++ [170, 187]) 0 + 8 :=
  C2_match_record (pngMagic ++ [2, 0, 0, 0] ++ [170, 187]) 0
    (by decide) (by decide) (by decide) (by decide)

/-- C3: for every match at offset `i` whose declared length overruns the
end of the file, the extraction does not fail: the written contents are
exactly the bytes from offset `i` to the end of the file, fewer than the
requested `declared length + 8` bytes, and the file is still written. -/
theorem C3_truncated_read (file : List Nat) (i : Nat)
    (hm : isMatch file i = true)
    (hover : file.length < i + (pngSize file i + 8)) :
    pngData file i = file.drop i ∧
    (pngData file i).length = file.length - i ∧
    (pngData file i).length < pngSize file i + 8 ∧
    (outName i, pngData file i) ∈ outputs file := by
  have hm8 := isMatch_add_le file i hm
  have h1 : pngData file i = file.drop i := by
    unfold pngData readAt
    apply List.take_of_length_le
    rw [List.length_drop]
    omega
  refine ⟨h1, ?_, ?_, ?_⟩
  · rw [h1, List.length_drop]
  · rw [h1, List.length_drop]; omega
  · exact List.mem_map_of_mem _ ((mem_matchOffsets file i).mpr hm)

/-- C3 witness: a match whose declared length 300 overruns the file. -/
theorem C3_truncated_read_witness :
    pngData (pngMagic ++ [44, 1, 0, 0] ++ [1, 2]) 0 =
      (pngMagic ++ [44, 1, 0, 0] ++ [1, 2]).drop 0 ∧
    (pngData (pngMagic ++ [44, 1, 0, 0] ++ [1, 2]) 0).length =
      (pngMagic ++ [44, 1, 0, 0] ++ [1, 2]).length - 0 ∧
    (pngData (pngMagic ++ [44, 1, 0, 0] ++ [1, 2]) 0).length <
      pngSize (pngMagic ++ [44, 1, 0, 0] ++ [1, 2]) 0 + 8 ∧
    (outName 0, pngData (pngMagic ++ [44, 1, 0, 0] ++ [1, 2]) 0) ∈
      outputs (pngMagic ++ [44, 1, 0, 0] ++ [1, 2]) :=
  C3_truncated_read (pngMagic ++ [44, 1, 0, 0] ++ [1, 2]) 0
    (by decide) (by decide)

/-- C6: extraction is triggered at offset `i` iff the 8 bytes at offsets
`i .. i+7` exist and equal exactly `89 50 4E 47 0D 0A 1A 0A`; any 8-byte
sequence differing from the PNG magic (in particular in exactly one
byte) does not trigger extraction. -/
theorem C6_byte_exact_magic (file : List Nat) (i : Nat) :
    (isMatch file i = true ↔
      i + 8 ≤ file.length ∧
      (file.drop i).take 8 =
        [0x89, 0x50, 0x4e, 0x47, 0x0d, 0x0a, 0x1a, 0x0a]) ∧
    (∀ s : List Nat, s.length = 8 →
      s ≠ [0x89, 0x50, 0x4e, 0x47, 0x0d, 0x0a, 0x1a, 0x0a] →
      (file.drop i).take 8 = s → isMatch file i = false) := by
  constructor
  · constructor
    · intro h
      exact ⟨isMatch_add_le file i h, (isMatch_iff file i).mp h⟩
    · intro h
      exact (isMatch_iff file i).mpr h.2
  · intro s _hs hne htake
    have : readAt file i 8 = s := htake
    simp only [isMatch, this]
    exact beq_eq_false_iff_ne.mpr (by simpa [pngMagic] using hne)

/-- C6 witness: the magic itself triggers extraction; the same sequence
with its last byte changed does not. -/
theorem C6_byte_exact_magic_witness :
    isMatch [0x89, 0x50, 0x4e, 0x47, 0x0d, 0x0a, 0x1a, 0x0a] 0 = true ∧
    isMatch [0x89, 0x50, 0x4e, 0x47, 0x0d, 0x0a, 0x1a, 0x0b] 0 = false :=
  ⟨(C6_byte_exact_magic [0x89, 0x50, 0x4e, 0x47, 0x0d, 0x0a, 0x1a, 0x0a]
      0).1.mpr ⟨by decide, by decide⟩,
   (C6_byte_exact_magic [0x89, 0x50, 0x4e, 0x47, 0x0d, 0x0a, 0x1a, 0x0b]
      0).2 [0x89, 0x50, 0x4e, 0x47, 0x0d, 0x0a, 0x1a, 0x0b]
      (by decide) (by decide) (by decide)⟩

/-- C4: a file with no magic occurrence produces zero output files and
the no-signatures message; a file with an occurrence suppresses that
message. -/
theorem C4_no_match_report (file : List Nat) :
    ((∀ i, isMatch file i = false) →
      outputs file = [] ∧ noSigMessage file = true) ∧
    (∀ i, isMatch file i = true → noSigMessage file = false) := by
  constructor
  · intro h
    have hoff : matchOffsets file = [] := by
      unfold matchOffsets
      exact List.filter_eq_nil_iff.mpr (fun a _ => by simp [h a])
    constructor
    · unfold outputs
      rw [hoff]
      rfl
    · unfold noSigMessage matchCount
      rw [hoff]
      rfl
  · intro i h
    have hmem : i ∈ matchOffsets file := (mem_matchOffsets file i).mpr h
    unfold noSigMessage matchCount
    have : matchOffsets file ≠ [] := by
      intro hnil
      rw [hnil] at hmem
      cases hmem
    simp [List.length_eq_zero, this]

/-- C4 witness: a three-byte file with no magic, and a file that is just
the magic. -/
theorem C4_no_match_report_witness :
    (outputs [1, 2, 3] = [] ∧ noSigMessage [1, 2, 3] = true) ∧
    noSigMessage [0x89, 0x50, 0x4e, 0x47, 0x0d, 0x0a, 0x1a, 0x0a] = false :=
  ⟨(C4_no_match_report [1, 2, 3]).1 (fun i => by
      cases hc : isMatch [1, 2, 3] i with
      | false => rfl
      | true =>
          have := isMatch_add_le [1, 2, 3] i hc
          simp at this),
   (C4_no_match_report [0x89, 0x50, 0x4e, 0x47, 0x0d, 0x0a, 0x1a, 0x0a]).2
      0 (by decide)⟩

/-- C9: the scan advances one byte at a time: an offset is in the match
list iff the magic matches there (overlapping or nested occurrences
are not skipped), the match list is strictly increasing, and every
match contributes its own output file. -/
theorem C9_every_offset_scanned (file : List Nat) :
    (matchOffsets file).Pairwise (· < ·) ∧
    (∀ i, i ∈ matchOffsets file ↔ isMatch file i = true) ∧
    (∀ i, isMatch file i = true →
      (outName i, pngData file i) ∈ outputs file) ∧
    (outputs file).length = (matchOffsets file).length := by
  refine ⟨matchOffsets_pairwise file, mem_matchOffsets file, ?_, ?_⟩
  · intro i h
    exact List.mem_map_of_mem _ ((mem_matchOffsets file i).mpr h)
  · unfold outputs
    rw [List.length_map]

/-- C9 witness: a second magic occurrence nested inside the extracted
range of the first still produces its own match and output. -/
theorem C9_every_offset_scanned_witness :
    (0 ∈ matchOffsets (pngMagic ++ [20, 0, 0, 0] ++ pngMagic ++ [0, 0, 0, 0]) ↔
      isMatch (pngMagic ++ [20, 0, 0, 0] ++ pngMagic ++ [0, 0, 0, 0]) 0 = true) ∧
    (outName 12,
        pngData (pngMagic ++ [20, 0, 0, 0] ++ pngMagic ++ [0, 0, 0, 0]) 12) ∈
      outputs (pngMagic ++ [20, 0, 0, 0] ++ pngMagic ++ [0, 0, 0, 0]) :=
  ⟨(C9_every_offset_scanned
      (pngMagic ++ [20, 0, 0, 0] ++ pngMagic ++ [0, 0, 0, 0])).2.1 0,
   (C9_every_offset_scanned
      (pngMagic ++ [20, 0, 0, 0] ++ pngMagic ++ [0, 0, 0, 0])).2.2.1 12
      (by decide)⟩

/-- C10: the scan is deterministic: on equal input byte sequences it
produces the same match count, the same match offsets, the same output
names and contents, and the same final message. -/
theorem C10_deterministic (f g : List Nat) (h : f = g) :
    matchCount f = matchCount g ∧
    matchOffsets f = matchOffsets g ∧
    outputs f = outputs g ∧
    noSigMessage f = noSigMessage g := by
  subst h
  exact ⟨rfl, rfl, rfl, rfl⟩

/-- C10 witness: two runs on the same concrete file agree. -/
theorem C10_deterministic_witness :
    matchCount [1, 2, 3] = matchCount [1, 2, 3] ∧
    matchOffsets [1, 2, 3] = matchOffsets [1, 2, 3] ∧
    outputs [1, 2, 3] = outputs [1, 2, 3] ∧
    noSigMessage [1, 2, 3] = noSigMessage [1, 2, 3] :=
  C10_deterministic [1, 2, 3] [1, 2, 3] rfl

/-- C1 counterexample: a file of the claimed shape with no padding,
`L = 4` and a 4-byte payload.  The single output's contents are the
`L + 8 = 12` bytes `PNG_MAGIC ++ length_field`, not the claimed
`L + 12 = 16` bytes `PNG_MAGIC ++ length_field ++ payload`. -/
theorem C1_counterexample :
    outputs (pngMagic ++ [4, 0, 0, 0] ++ [1, 2, 3, 4] ++ [5, 5, 5, 5]) =
      [(outName 0, pngMagic ++ [4, 0, 0, 0])] ∧
    ¬ (pngMagic ++ [4, 0, 0, 0] : List Nat) =
      pngMagic ++ [4, 0, 0, 0] ++ [1, 2, 3, 4] := by
  constructor
  · decide
  · decide

/-- C1 amended: an input of the form
`padding ++ PNG_MAGIC ++ length_field ++ payload ++ trailing`
(4-byte length field, `L = fromBytesLE length_field`, `L`-byte payload,
magic occurring only at `i = padding.length`) produces exactly one
output file named `pngs/<i>.png` whose contents are the `L + 8` bytes
starting at the match offset, i.e. `PNG_MAGIC` followed by the first
`L` bytes of `length_field ++ payload`. -/
theorem C1_single_match_extraction
    (padding lenBytes payload trailing : List Nat)
    (hlen : lenBytes.length = 4)
    (hpay : payload.length = fromBytesLE lenBytes)
    (huniq : ∀ j,
      j < (padding ++ (pngMagic ++ (lenBytes ++ (payload ++ trailing)))).length →
      isMatch (padding ++ (pngMagic ++ (lenBytes ++ (payload ++ trailing)))) j
        = true →
      j = padding.length) :
    outputs (padding ++ (pngMagic ++ (lenBytes ++ (payload ++ trailing)))) =
      [(outName padding.length,
        pngMagic ++ (lenBytes ++ payload).take (fromBytesLE lenBytes))] := by
  have hmatch := isMatch_at_magic padding (lenBytes ++ (payload ++ trailing))
  have huniq2 : ∀ j,
      isMatch (padding ++ (pngMagic ++ (lenBytes ++ (payload ++ trailing)))) j
        = true → j = padding.length := by
    intro j hj
    have h8 := isMatch_add_le _ j hj
    exact huniq j (by omega) hj
  have hoff := matchOffsets_eq_singleton _ padding.length hmatch huniq2
  have hsize :
      pngSize (padding ++ (pngMagic ++ (lenBytes ++ (payload ++ trailing))))
        padding.length = fromBytesLE lenBytes := by
    rw [pngSize_at_magic, List.take_left' hlen]
  have hdata := pngData_at_magic padding (lenBytes ++ (payload ++ trailing))
  rw [hsize] at hdata
  have htake : (lenBytes ++ (payload ++ trailing)).take (fromBytesLE lenBytes)
      = (lenBytes ++ payload).take (fromBytesLE lenBytes) := by
    have h0 : fromBytesLE lenBytes - lenBytes.length - payload.length = 0 := by
      rw [hlen, hpay]
      omega
    simp [List.take_append_eq_append_take, h0]
  unfold outputs
  rw [hoff]
  simp only [List.map_cons, List.map_nil]
  rw [hdata, htake]

/-- C1 witness: no padding, `L = 4`, payload `[9, 9, 9, 9]`, one
trailing byte. -/
theorem C1_single_match_extraction_witness :
    outputs ([] ++ (pngMagic ++ ([4, 0, 0, 0] ++ ([9, 9, 9, 9] ++ [7])))) =
      [(outName (List.length ([] : List Nat)),
        pngMagic ++ ([4, 0, 0, 0] ++ [9, 9, 9, 9]).take
          (fromBytesLE [4, 0, 0, 0]))] :=
  C1_single_match_extraction [] [4, 0, 0, 0] [9, 9, 9, 9] [7]
    rfl (by decide) (by decide)

/-- C5: a file whose only matches are at two offsets `i < j` produces
exactly two output files, named by the two offsets (the names are
distinct), each containing the slice extracted for its own offset. -/
theorem C5_two_matches (file : List Nat) (i j : Nat) (hij : i < j)
    (hi : isMatch file i = true) (hj : isMatch file j = true)
    (huniq : ∀ k, k < file.length → isMatch file k = true →
      k = i ∨ k = j) :
    outputs file =
      [(outName i, pngData file i), (outName j, pngData file j)] ∧
    ¬ outName i = outName j := by
  have huniq2 : ∀ k, isMatch file k = true → k = i ∨ k = j := by
    intro k hk
    have h8 := isMatch_add_le file k hk
    exact huniq k (by omega) hk
  have hoff := matchOffsets_eq_pair file i j hij hi hj huniq2
  constructor
  · unfold outputs
    rw [hoff]
    rfl
  · intro h
    have := outName_injective h
    omega

/-- C5 witness: two back-to-back embedded signatures at offsets 0 and
12. -/
theorem C5_two_matches_witness :
    outputs (pngMagic ++ [0, 0, 0, 0] ++ pngMagic ++ [0, 0, 0, 0]) =
      [(outName 0,
          pngData (pngMagic ++ [0, 0, 0, 0] ++ pngMagic ++ [0, 0, 0, 0]) 0),
       (outName 12,
          pngData (pngMagic ++ [0, 0, 0, 0] ++ pngMagic ++ [0, 0, 0, 0]) 12)] ∧
    ¬ outName 0 = outName 12 :=
  C5_two_matches (pngMagic ++ [0, 0, 0, 0] ++ pngMagic ++ [0, 0, 0, 0])
    0 12 (by decide) (by decide) (by decide) (by decide)

/-- C7: with no command-line argument and an empty prompt response, the
prologue exits with status 1 (non-zero) and the no-argument message,
no scan runs, and no output file is produced. -/
theorem C7_missing_input (file : List Nat) :
    selectFilename none "" =
      Except.error "No Args or filename given, exiting!" ∧
    exitStatus (selectFilename none "") = 1 ∧
    0 < exitStatus (selectFilename none "") ∧
    scanRuns none "" = false ∧
    programOutputs none "" file = [] :=
  ⟨rfl, rfl, Nat.zero_lt_one, rfl, rfl⟩

/-- C8: `os.mkdir('pngs')` failing with `EEXIST` is treated as success,
any other errno is re-raised; and writing the scan's outputs a second
time over a store that already holds them leaves the store unchanged
(identically named files are overwritten with identical content). -/
theorem C8_mkdir_and_rerun :
    mkdirPngs (some EEXIST) = Except.ok () ∧
    mkdirPngs none = Except.ok () ∧
    (∀ e, ¬ e = EEXIST → mkdirPngs (some e) = Except.error e) ∧
    (∀ (st : String → Option (List Nat)) (file : List Nat),
      applyOutputs (applyOutputs st (outputs file)) (outputs file) =
        applyOutputs st (outputs file)) := by
  refine ⟨rfl, rfl, ?_, ?_⟩
  · intro e he
    simp [mkdirPngs, he]
  · intro st file
    exact applyOutputs_idem st (outputs file)

/-- C8 witness: `EACCES` (errno 13) is re-raised; rerunning the scan of
a one-signature file over an empty store changes nothing. -/
theorem C8_mkdir_and_rerun_witness :
    mkdirPngs (some 13) = Except.error 13 ∧
    applyOutputs
        (applyOutputs (fun _ => none)
          (outputs (pngMagic ++ [0, 0, 0, 0])))
        (outputs (pngMagic ++ [0, 0, 0, 0])) =
      applyOutputs (fun _ => none) (outputs (pngMagic ++ [0, 0, 0, 0])) :=
  ⟨C8_mkdir_and_rerun.2.2.1 13 (by decide),
   C8_mkdir_and_rerun.2.2.2 (fun _ => none) (pngMagic ++ [0, 0, 0, 0])⟩

end Afthumbs
